import Mathlib

/-!
Verification of the well-trajectory / formation-tops core of the repository.

The embedding follows two source files:
* `wellx/items/location/_tops.py` (class `Tops`) — embedded over `ℚ`
  (exact rationals stand in for IEEE doubles; `Tops` uses only ordered-field
  comparisons, insertion and deletion, so the embedding is faithful up to
  float rounding, which none of the claims depend on).
* `wellx/items/location/_survey.py` (class `Survey`) — the container and its
  instance methods (interpolation, range checks, downsampling) use only
  ordered-field arithmetic and are embedded over `ℚ`; the static geometry
  methods (`inc2tvd`, `off2tvd`, `minimum_curvature`) use `cos`, `sin`,
  `arccos`, `tan`, `sqrt` and are embedded over `ℝ`.

Python exceptions are modelled with `Except`: a `raise` becomes `.error`,
carrying the error kind and the data the message interpolates.
-/

deriving instance DecidableEq for Except

/-- Error kinds raised by `Tops` (`ValueError` in the source, split by the
taxonomy the messages encode: validation vs not-found). -/
inductive TopsErr where
  | validation : String → TopsErr
  | notFound : String → TopsErr
deriving DecidableEq, Repr

/-- Embedding of the `Tops` dataclass internal state: `_formation` (names,
shallow→deep), `_depth` (parallel depths) and `_facecolor` (a name→color
dict, modelled as an association list). -/
structure Tops where
  formation : List String
  depth : List ℚ
  facecolor : List (String × String)
deriving DecidableEq, Repr

namespace Tops

/-- The sort the constructor performs: `np.argsort(depths, kind="mergesort")`
applied to the zipped (name, depth) pairs, i.e. a sort by depth keeping names
aligned.  `List.insertionSort` by `≤` on the depth component produces the same
sorted-by-depth result (the claims under verification do not depend on the
order of equal-depth ties). -/
def sortByDepth (pairs : List (String × ℚ)) : List (String × ℚ) :=
  pairs.insertionSort (fun a b => a.2 ≤ b.2)

/-- Embedding of `Tops.__post_init__`: validates lengths, finiteness (`ℚ` has
no NaN/inf, so only the `depth < 0` test remains), duplicate names, then sorts
shallow→deep keeping names aligned and stores the facecolor mapping. -/
def mk_ (formation : List String) (depth : List ℚ)
    (facecolor : List (String × String)) : Except TopsErr Tops :=
  if formation.length ≠ depth.length then
    .error (.validation "formation and depth must have the same length.")
  else if depth.any (· < 0) then
    .error (.validation "All depths must be >= 0 for MD (positive downward).")
  else if ¬ formation.Nodup then
    .error (.validation "Duplicate formation names not allowed")
  else
    let pairs := sortByDepth (formation.zip depth)
    .ok ⟨pairs.map Prod.fst, pairs.map Prod.snd, facecolor⟩

/-- Embedding of `Tops.index`: first index of an exact name, not-found error
if absent. -/
def index (t : Tops) (name : String) : Except TopsErr ℕ :=
  if name ∈ t.formation then .ok (t.formation.indexOf name)
  else .error (.notFound ("Formation not found: " ++ name))

/-- Embedding of `Tops.get_top`. -/
def get_top (t : Tops) (name : String) : Except TopsErr ℚ :=
  match t.index name with
  | .error e => .error e
  | .ok i => .ok (t.depth.getD i 0)

/-- Embedding of `Tops.get_limit`: `(top, bottom)`, bottom = next deeper top
or `none` for the deepest formation. -/
def get_limit (t : Tops) (name : String) : Except TopsErr (ℚ × Option ℚ) :=
  match t.index name with
  | .error e => .error e
  | .ok i =>
    .ok (t.depth.getD i 0,
         if i < t.depth.length - 1 then some (t.depth.getD (i + 1) 0) else none)

/-- Loop of `Tops.intervals` over the aligned name/depth lists: each top is
paired with the next deeper top (`depth[i+1] if i < n-1 else None`), which for
the tail list is exactly its head. -/
def intervalsAux : List String → List ℚ → List (String × ℚ × Option ℚ)
  | name :: ns, d :: ds => (name, d, ds.head?) :: intervalsAux ns ds
  | _, _ => []

/-- Embedding of `Tops.intervals`: all `(name, top, bottom)` triples in stored
order; the deepest bottom is `none`. -/
def intervals (t : Tops) : List (String × ℚ × Option ℚ) :=
  intervalsAux t.formation t.depth

/-- Loop body of `Tops.find_at_md`: first interval containing `md` under the
half-open convention, the open-ended deepest interval accepting any
`md ≥ top`. -/
def findIn (md : ℚ) : List (String × ℚ × Option ℚ) → Option String
  | [] => none
  | (name, top, bottom) :: rest =>
    match bottom with
    | none => if md ≥ top then some name else findIn md rest
    | some b => if top ≤ md ∧ md < b then some name else findIn md rest

/-- Embedding of `Tops.find_at_md`. -/
def find_at_md (t : Tops) (md : ℚ) : Option String :=
  findIn md t.intervals

/-- Embedding of `np.searchsorted(a, v, side="left")` on a sorted list: the
first index whose element is `≥ v`. -/
def searchsortedLeft (l : List ℚ) (v : ℚ) : ℕ :=
  match l with
  | [] => 0
  | a :: rest => if v ≤ a then 0 else searchsortedLeft rest v + 1

/-- Association-list update modelling `dict.__setitem__`. -/
def dictSet (d : List (String × String)) (k v : String) : List (String × String) :=
  if d.any (·.1 = k) then d.map (fun p => if p.1 = k then (k, v) else p) else d ++ [(k, v)]

/-- Embedding of `Tops.add`: rejects an existing name or an invalid depth,
then inserts at the `searchsorted` position, keeping the sort order. -/
def add (t : Tops) (name : String) (depth : ℚ) (facecolor : Option String) :
    Except TopsErr Tops :=
  if name ∈ t.formation then
    .error (.validation ("Formation already exists: " ++ name))
  else if depth < 0 then
    .error (.validation "Depth must be a finite number >= 0.")
  else
    let insertAt := searchsortedLeft t.depth depth
    .ok ⟨t.formation.insertIdx insertAt name, t.depth.insertIdx insertAt depth,
         match facecolor with
         | some c => dictSet t.facecolor name c
         | none => t.facecolor⟩

/-- Embedding of `Tops.remove`: silent no-op when the name is absent,
otherwise delete the aligned entries and pop the facecolor key. -/
def remove (t : Tops) (name : String) : Tops :=
  if name ∈ t.formation then
    let i := t.formation.indexOf name
    ⟨t.formation.eraseIdx i, t.depth.eraseIdx i,
     t.facecolor.filter (fun p => p.1 ≠ name)⟩
  else t

/-- Embedding of `Tops.rename`: fails if the new name exists or the old one
does not; depths stay in place, the facecolor key is moved when present. -/
def rename (t : Tops) (old nw : String) : Except TopsErr Tops :=
  if nw ∈ t.formation then
    .error (.validation ("Formation already exists: " ++ nw))
  else
    match t.index old with
    | .error e => .error e
    | .ok i =>
      let fc :=
        match t.facecolor.lookup old with
        | some c => (t.facecolor.filter (fun p => p.1 ≠ old)) ++ [(nw, c)]
        | none => t.facecolor
      .ok ⟨t.formation.set i nw, t.depth, fc⟩

/-- The data invariant the spec states for `FormationTops`: aligned lengths,
distinct names, non-negative depths, and depths sorted shallow→deep. -/
def Inv (t : Tops) : Prop :=
  t.formation.length = t.depth.length ∧ t.formation.Nodup ∧
  (∀ d ∈ t.depth, 0 ≤ d) ∧ t.depth.Chain' (· ≤ ·)

/-- Boolean test for shallow→deep ordering (used only to give `Inv` a
kernel-reducible decision procedure). -/
def chainLeB : List ℚ → Bool
  | [] => true
  | [_] => true
  | a :: b :: r => decide (a ≤ b) && chainLeB (b :: r)

theorem chainLeB_iff : ∀ l : List ℚ, chainLeB l = true ↔ l.Chain' (· ≤ ·) := by
  intro l
  induction l with
  | nil => simp [chainLeB]
  | cons a r ih =>
    cases r with
    | nil => simp [chainLeB]
    | cons b rb =>
      rw [chainLeB, Bool.and_eq_true, decide_eq_true_iff, ih, List.chain'_cons]

instance (t : Tops) : Decidable t.Inv :=
  decidable_of_iff (t.formation.length = t.depth.length ∧
    t.formation.Nodup ∧ (∀ d ∈ t.depth, 0 ≤ d) ∧ chainLeB t.depth = true)
    (by unfold Inv; rw [chainLeB_iff])

theorem searchsortedLeft_le_length (v : ℚ) :
    ∀ l : List ℚ, searchsortedLeft l v ≤ l.length := by
  intro l
  induction l with
  | nil => simp [searchsortedLeft]
  | cons a rest ih =>
    by_cases hv : v ≤ a
    · simp [searchsortedLeft, hv]
    · simpa [searchsortedLeft, hv] using ih

theorem head?_insertAt (l : List ℚ) (v : ℚ) :
    (l.insertIdx (searchsortedLeft l v) v).head? = some (min v (l.headD v)) := by
  cases l with
  | nil => simp [searchsortedLeft]
  | cons a rest =>
    by_cases hv : v ≤ a
    · simp [searchsortedLeft, hv, min_eq_left hv]
    · simp [searchsortedLeft, hv, List.insertIdx_succ_cons,
        min_eq_right (le_of_not_le hv)]

theorem chain'_insertAt (v : ℚ) :
    ∀ l : List ℚ, l.Chain' (· ≤ ·) →
      (l.insertIdx (searchsortedLeft l v) v).Chain' (· ≤ ·) := by
  intro l
  induction l with
  | nil => intro _; simp [searchsortedLeft]
  | cons a rest ih =>
    intro h
    by_cases hv : v ≤ a
    · simpa [searchsortedLeft, hv] using List.chain'_cons.mpr ⟨hv, h⟩
    · have hav : a ≤ v := le_of_not_le hv
      simp only [searchsortedLeft, hv, if_false, List.insertIdx_succ_cons]
      refine List.chain'_cons'.mpr ⟨?_, ih h.tail⟩
      intro y hy
      rw [head?_insertAt] at hy
      have h2 : a ≤ rest.headD v := by
        cases rest with
        | nil => simpa using hav
        | cons b tb => exact (List.chain'_cons.mp h).1
      simp only [Option.mem_def, Option.some.injEq] at hy
      subst hy
      exact le_min hav h2

theorem nodup_insertIdx {α : Type} :
    ∀ (n : ℕ) (l : List α) (a : α), a ∉ l → l.Nodup → n ≤ l.length →
      (l.insertIdx n a).Nodup := by
  intro n
  induction n with
  | zero =>
    intro l a ha hl _
    simpa [List.insertIdx_zero] using ⟨ha, hl⟩
  | succ n ih =>
    intro l a ha hl hle
    cases l with
    | nil => simp at hle
    | cons b t =>
      rw [List.insertIdx_succ_cons]
      have hbt := List.nodup_cons.mp hl
      refine List.nodup_cons.mpr ⟨?_, ih t a (fun hm => ha (List.mem_cons_of_mem _ hm))
        hbt.2 (Nat.le_of_succ_le_succ hle)⟩
      intro hb
      rcases (List.mem_insertIdx (Nat.le_of_succ_le_succ hle)).mp hb with hba | hbm
      · exact ha (hba ▸ List.mem_cons_self _ _)
      · exact hbt.1 hbm

instance : IsTotal (String × ℚ) (fun a b => a.2 ≤ b.2) :=
  ⟨fun a b => le_total a.2 b.2⟩

instance : IsTrans (String × ℚ) (fun a b => a.2 ≤ b.2) :=
  ⟨fun _ _ _ => le_trans⟩

theorem mk_Inv (f : List String) (d : List ℚ) (fc : List (String × String))
    (t : Tops) (h : mk_ f d fc = .ok t) : t.Inv := by
  unfold mk_ at h
  split_ifs at h with h1 h2 h3
  replace h1 : f.length = d.length := not_ne_iff.mp h1
  simp only [Except.ok.injEq] at h
  subst h
  have hperm : List.Perm (sortByDepth (f.zip d)) (f.zip d) :=
    List.perm_insertionSort _ _
  refine ⟨by simp, ?_, ?_, ?_⟩
  · have hfst : (f.zip d).map Prod.fst = f := List.map_fst_zip f d (le_of_eq h1)
    exact ((hperm.map Prod.fst).nodup_iff).mpr (by rw [hfst]; exact h3)
  · intro x hx
    rcases List.mem_map.mp hx with ⟨p, hp, hpx⟩
    have hpz : p ∈ f.zip d := hperm.subset hp
    have hxd : p.2 ∈ d := (List.of_mem_zip hpz).2
    by_contra hneg
    exact h2 (List.any_eq_true.mpr ⟨p.2, hxd, by simp [hpx]; exact lt_of_not_le hneg⟩)
  · have hs : List.Sorted (fun a b : String × ℚ => a.2 ≤ b.2) (sortByDepth (f.zip d)) :=
      List.sorted_insertionSort _ _
    exact List.chain'_iff_pairwise.mpr (List.pairwise_map.mpr hs)

theorem add_Inv (t : Tops) (ht : t.Inv) (name : String) (dep : ℚ)
    (fc : Option String) (t2 : Tops) (h : t.add name dep fc = .ok t2) : t2.Inv := by
  obtain ⟨hlen, hnodup, hpos, hchain⟩ := ht
  unfold add at h
  split_ifs at h with h1 h2
  injection h with h
  subst h
  have hsd : searchsortedLeft t.depth dep ≤ t.depth.length :=
    searchsortedLeft_le_length dep t.depth
  have hsf : searchsortedLeft t.depth dep ≤ t.formation.length := hlen ▸ hsd
  refine ⟨?_, ?_, ?_, ?_⟩
  · simp only [List.length_insertIdx _ _ hsf, List.length_insertIdx _ _ hsd, hlen]
  · exact nodup_insertIdx _ _ _ h1 hnodup hsf
  · intro x hx
    rcases (List.mem_insertIdx hsd).mp hx with hxd | hxm
    · exact hxd ▸ le_of_not_lt h2
    · exact hpos x hxm
  · exact chain'_insertAt dep t.depth hchain

theorem remove_Inv (t : Tops) (ht : t.Inv) (name : String) : (t.remove name).Inv := by
  obtain ⟨hlen, hnodup, hpos, hchain⟩ := ht
  unfold remove
  split_ifs with h
  · have hidx : t.formation.indexOf name < t.formation.length :=
      List.indexOf_lt_length.mpr h
    refine ⟨?_, ?_, ?_, ?_⟩
    · rw [List.length_eraseIdx, List.length_eraseIdx, if_pos hidx,
        if_pos (hlen ▸ hidx), hlen]
    · exact (List.eraseIdx_sublist _ _).nodup hnodup
    · exact fun x hx => hpos x ((List.eraseIdx_sublist _ _).subset hx)
    · exact List.chain'_iff_pairwise.mpr
        (((List.chain'_iff_pairwise).mp hchain).sublist (List.eraseIdx_sublist _ _))
  · exact ⟨hlen, hnodup, hpos, hchain⟩

/-- Shape of the interval list produced by `intervals` on a valid `Tops`:
each bottom is the next element's top, tops ascend, and only the deepest
bottom is `none`. -/
def IChain : List (String × ℚ × Option ℚ) → Prop
  | [] => True
  | [(_, _, b)] => b = none
  | (_, t0, b0) :: (n1, t1, b1) :: rest =>
    b0 = some t1 ∧ t0 ≤ t1 ∧ IChain ((n1, t1, b1) :: rest)

theorem IChain_top_le :
    ∀ (L : List (String × ℚ × Option ℚ)) (n0 : String) (t0 : ℚ) (b0 : Option ℚ),
      IChain ((n0, t0, b0) :: L) → ∀ q ∈ (n0, t0, b0) :: L, t0 ≤ q.2.1 := by
  intro L
  induction L with
  | nil =>
    intro n0 t0 b0 _ q hq
    simp only [List.mem_singleton] at hq
    simp [hq]
  | cons p rest ih =>
    intro n0 t0 b0 hic q hq
    obtain ⟨n1, t1, b1⟩ := p
    obtain ⟨_, hle, hic2⟩ := hic
    rcases List.mem_cons.mp hq with hq | hq
    · simp [hq]
    · exact le_trans hle (ih n1 t1 b1 hic2 q hq)

theorem findIn_cons_none (md : ℚ) (n0 : String) (t0 : ℚ)
    (rest : List (String × ℚ × Option ℚ)) :
    findIn md ((n0, t0, none) :: rest) =
      if md ≥ t0 then some n0 else findIn md rest := rfl

theorem findIn_cons_some (md : ℚ) (n0 : String) (t0 b : ℚ)
    (rest : List (String × ℚ × Option ℚ)) :
    findIn md ((n0, t0, some b) :: rest) =
      if t0 ≤ md ∧ md < b then some n0 else findIn md rest := rfl

theorem findIn_iff :
    ∀ (L : List (String × ℚ × Option ℚ)), IChain L → ∀ (md : ℚ) (f : String),
      (findIn md L = some f ↔
        ∃ top bottom, (f, top, bottom) ∈ L ∧ top ≤ md ∧
          ∀ b, bottom = some b → md < b) := by
  intro L
  induction L with
  | nil => intro _ md f; simp [findIn]
  | cons p L ih =>
    intro hic md f
    obtain ⟨n0, t0, b0⟩ := p
    cases L with
    | nil =>
      have hb0 : b0 = none := hic
      subst hb0
      rw [findIn_cons_none]
      by_cases hmd : md ≥ t0
      · rw [if_pos hmd]
        constructor
        · intro hf
          injection hf with hf
          exact ⟨t0, none, by simp [hf], hmd, by simp⟩
        · rintro ⟨top, bottom, hmem, htop, _⟩
          simp only [List.mem_singleton, Prod.mk.injEq] at hmem
          simp [hmem.1]
      · rw [if_neg hmd]
        constructor
        · intro hf; simp [findIn] at hf
        · rintro ⟨top, bottom, hmem, htop, _⟩
          simp only [List.mem_singleton, Prod.mk.injEq] at hmem
          exact absurd (hmem.2.1 ▸ htop) hmd
    | cons q L2 =>
      obtain ⟨n1, t1, b1⟩ := q
      obtain ⟨hb0, hle, hic2⟩ := hic
      subst hb0
      rw [findIn_cons_some]
      by_cases hc : t0 ≤ md ∧ md < t1
      · rw [if_pos hc]
        constructor
        · intro hf
          injection hf with hf
          exact ⟨t0, some t1, by simp [hf], hc.1, fun b hb => by
            cases hb; exact hc.2⟩
        · rintro ⟨top, bottom, hmem, htop, hbot⟩
          rcases List.mem_cons.mp hmem with hmem | hmem
          · simp only [Prod.mk.injEq] at hmem
            simp [hmem.1]
          · exfalso
            have := IChain_top_le _ n1 t1 b1 hic2 (f, top, bottom) hmem
            exact absurd htop (not_le.mpr (lt_of_lt_of_le hc.2 this))
      · rw [if_neg hc, ih hic2 md f]
        constructor
        · rintro ⟨top, bottom, hmem, htop, hbot⟩
          exact ⟨top, bottom, List.mem_cons_of_mem _ hmem, htop, hbot⟩
        · rintro ⟨top, bottom, hmem, htop, hbot⟩
          rcases List.mem_cons.mp hmem with hmem | hmem
          · exfalso
            simp only [Prod.mk.injEq] at hmem
            exact hc ⟨hmem.2.1 ▸ htop, hbot t1 hmem.2.2⟩
          · exact ⟨top, bottom, hmem, htop, hbot⟩

theorem intervalsAux_IChain :
    ∀ (ns : List String) (ds : List ℚ), ns.length = ds.length →
      ds.Chain' (· ≤ ·) → IChain (intervalsAux ns ds) := by
  intro ns
  induction ns with
  | nil => intro ds _ _; simp [intervalsAux, IChain]
  | cons n ns ih =>
    intro ds hlen hchain
    cases ds with
    | nil => simp [intervalsAux, IChain]
    | cons d ds =>
      cases ds with
      | nil =>
        have : ns = [] := List.length_eq_zero.mp (by simpa using hlen)
        subst this
        simp [intervalsAux, IChain]
      | cons d2 ds2 =>
        cases ns with
        | nil => simp at hlen
        | cons n2 ns2 =>
          refine ⟨rfl, (List.chain'_cons.mp hchain).1, ?_⟩
          exact ih (d2 :: ds2) (by simpa using hlen) hchain.tail

theorem rename_Inv (t : Tops) (ht : t.Inv) (old nw : String) (t2 : Tops)
    (h : t.rename old nw = .ok t2) : t2.Inv := by
  obtain ⟨hlen, hnodup, hpos, hchain⟩ := ht
  unfold rename at h
  split_ifs at h with h1
  unfold index at h
  split_ifs at h with h2
  injection h with h
  subst h
  exact ⟨by simp [hlen], hnodup.set h1, hpos, hchain⟩

/-- C5: for every valid FormationTops and every depth md, find_at_md returns
the unique formation whose interval (as listed by `intervals`, mirroring
`get_limit`) contains md under the half-open convention — inclusive at the
shallower boundary, exclusive at the deeper one — except the deepest
formation, which contains any md at or below its top; and it returns `none`
when md is shallower than the first top. -/
theorem find_at_md_spec (t : Tops) (hinv : t.Inv) (md : ℚ) :
    (∀ f, t.find_at_md md = some f ↔
      ∃ top bottom, (f, top, bottom) ∈ t.intervals ∧ top ≤ md ∧
        ∀ b, bottom = some b → md < b) ∧
    (∀ d0, t.depth.head? = some d0 → md < d0 → t.find_at_md md = none) := by
  obtain ⟨hlen, _, _, hchain⟩ := hinv
  have hic : IChain t.intervals :=
    intervalsAux_IChain t.formation t.depth hlen hchain
  constructor
  · intro f
    exact findIn_iff t.intervals hic md f
  · intro d0 hd0 hmd
    rcases hfd : t.find_at_md md with _ | f
    · rfl
    · exfalso
      obtain ⟨top, bottom, hmem, htop, _⟩ :=
        (findIn_iff t.intervals hic md f).mp hfd
      cases hdep : t.depth with
      | nil => rw [hdep] at hd0; simp at hd0
      | cons dd ds =>
        rw [hdep] at hd0
        simp only [List.head?_cons, Option.some.injEq] at hd0
        cases hform : t.formation with
        | nil =>
          have hie : t.intervals = [] := by
            rw [intervals, hform, hdep]; rfl
          rw [hie] at hmem
          simp at hmem
        | cons n0 nf =>
          have hI : t.intervals = (n0, dd, ds.head?) :: intervalsAux nf ds := by
            rw [intervals, hform, hdep]; rfl
          rw [hI] at hic hmem
          have htople := IChain_top_le _ n0 dd ds.head? hic (f, top, bottom) hmem
          simp only at htople
          exact absurd htop (not_le.mpr (lt_of_lt_of_le hmd (hd0 ▸ htople)))

/-- C9: the FormationTops invariant — depths stored sorted shallow→deep,
names aligned and distinct, depths non-negative — is established by the
constructor for every valid input and preserved by every successful add,
remove and rename. -/
theorem invariant_preserved :
    (∀ f d fc t, mk_ f d fc = .ok t → t.Inv) ∧
    (∀ t : Tops, t.Inv → ∀ name dep fc t2, t.add name dep fc = .ok t2 → t2.Inv) ∧
    (∀ t : Tops, t.Inv → ∀ name, (t.remove name).Inv) ∧
    (∀ t : Tops, t.Inv → ∀ old nw t2, t.rename old nw = .ok t2 → t2.Inv) :=
  ⟨mk_Inv, add_Inv, remove_Inv, rename_Inv⟩

/-- C10: removing an absent name is a silent no-op leaving the Tops entirely
unchanged, while index, get_top and get_limit fail with a not-found error on
the same absent name. -/
theorem remove_absent_noop (t : Tops) (name : String) (h : name ∉ t.formation) :
    t.remove name = t ∧
    t.index name = .error (.notFound ("Formation not found: " ++ name)) ∧
    t.get_top name = .error (.notFound ("Formation not found: " ++ name)) ∧
    t.get_limit name = .error (.notFound ("Formation not found: " ++ name)) := by
  refine ⟨?_, ?_, ?_, ?_⟩ <;> simp [remove, index, get_top, get_limit, h]

end Tops

/-- Witness for C5 at the tops of the spec's worked example. -/
theorem find_at_md_spec_witness :
    Tops.find_at_md ⟨["A", "B", "C"], [1000, 1500, 2000], []⟩ 1500 = some "B" :=
  ((Tops.find_at_md_spec ⟨["A", "B", "C"], [1000, 1500, 2000], []⟩
      (by decide) 1500).1 "B").mpr
    ⟨1500, some 2000, by decide, by decide, by intro b hb; cases hb; decide⟩

/-- Witness for C9 at concrete inputs: an unsorted construction input, an
insertion in the middle, a removal, and a rename. -/
theorem invariant_preserved_witness :
    Tops.Inv ⟨["A", "B"], [1000, 1500], []⟩ ∧
    Tops.Inv ⟨["A", "C", "B"], [1000, 1200, 1500], []⟩ ∧
    Tops.Inv (Tops.remove ⟨["A", "B"], [1000, 1500], []⟩ "A") ∧
    Tops.Inv ⟨["Z", "B"], [1000, 1500], []⟩ :=
  ⟨Tops.invariant_preserved.1 ["B", "A"] [1500, 1000] []
      ⟨["A", "B"], [1000, 1500], []⟩ (by decide),
   Tops.invariant_preserved.2.1 ⟨["A", "B"], [1000, 1500], []⟩ (by decide)
      "C" 1200 none ⟨["A", "C", "B"], [1000, 1200, 1500], []⟩ (by decide),
   Tops.invariant_preserved.2.2.1 ⟨["A", "B"], [1000, 1500], []⟩ (by decide) "A",
   Tops.invariant_preserved.2.2.2 ⟨["A", "B"], [1000, 1500], []⟩ (by decide)
      "A" "Z" ⟨["Z", "B"], [1000, 1500], []⟩ (by decide)⟩

/-- Witness for C10 at a concrete Tops and an absent name. -/
theorem remove_absent_noop_witness :
    Tops.remove ⟨["A"], [1000], []⟩ "X" = ⟨["A"], [1000], []⟩ ∧
    Tops.index ⟨["A"], [1000], []⟩ "X" =
      .error (.notFound ("Formation not found: " ++ "X")) ∧
    Tops.get_top ⟨["A"], [1000], []⟩ "X" =
      .error (.notFound ("Formation not found: " ++ "X")) ∧
    Tops.get_limit ⟨["A"], [1000], []⟩ "X" =
      .error (.notFound ("Formation not found: " ++ "X")) :=
  Tops.remove_absent_noop ⟨["A"], [1000], []⟩ "X" (by decide)

example : Tops.mk_ ["B", "A"] [1500, 1000] [] =
    .ok ⟨["A", "B"], [1000, 1500], []⟩ := by decide

example :
    (Tops.mk_ ["A", "B", "C"] [1000, 1500, 2000] []).map
      (fun t => (t.find_at_md 999, t.find_at_md 1000, t.find_at_md 1499,
                 t.find_at_md 1500, t.find_at_md 9999)) =
    .ok (none, some "A", some "A", some "B", some "C") := by decide

/-! ## Survey (`wellx/items/location/_survey.py`)

Instance-level interpolation and downsampling use only ordered-field
arithmetic, so the `Survey` container is embedded over `ℚ` (exact stand-in
for IEEE doubles).  The static geometry methods (`inc2tvd`, `off2tvd`,
`minimum_curvature`) use transcendental functions and are embedded over `ℝ`
below, taking their arrays as parameters exactly as the Python
`@staticmethod`s do. -/

/-- Error kinds raised by `Survey` methods: `validation` for malformed input
or a missing array, `range` for an interpolation query outside the indexed
range (carrying the query bounds and the valid bounds the message names). -/
inductive SurveyErr where
  | validation : String → SurveyErr
  | range : ℚ → ℚ → ℚ → ℚ → SurveyErr
deriving DecidableEq, Repr

/-- Embedding of the `Survey` dataclass: six optional station arrays plus the
tie-in scalars. -/
structure Survey where
  MD : Option (List ℚ) := none
  TVD : Option (List ℚ) := none
  DX : Option (List ℚ) := none
  DY : Option (List ℚ) := none
  INC : Option (List ℚ) := none
  AZI : Option (List ℚ) := none
  xhead : ℚ := 0
  yhead : ℚ := 0
  datum : ℚ := 0
deriving DecidableEq, Repr

namespace Survey

/-- The provided arrays in the fixed `(MD, TVD, DX, DY, INC, AZI)` order,
skipping the absent ones — the tuple order used by the source throughout. -/
def presentArrays (s : Survey) : List (List ℚ) :=
  [s.MD, s.TVD, s.DX, s.DY, s.INC, s.AZI].filterMap id

/-- Boolean embedding of `np.all(np.diff(arr) > 0)`: strict pairwise
increase of consecutive elements. -/
def strictIncB : List ℚ → Bool
  | [] => true
  | [_] => true
  | a :: b :: r => decide (a < b) && strictIncB (b :: r)

theorem strictIncB_iff : ∀ l : List ℚ, strictIncB l = true ↔ l.Chain' (· < ·) := by
  intro l
  induction l with
  | nil => simp [strictIncB]
  | cons a r ih =>
    cases r with
    | nil => simp [strictIncB]
    | cons b rb =>
      rw [strictIncB, Bool.and_eq_true, decide_eq_true_iff, ih, List.chain'_cons]

/-- Embedding of `Survey._validate_shapes_and_monotonicity`: all provided
arrays share one length, and `MD`, when provided, is strictly increasing. -/
def validate (s : Survey) : Except SurveyErr Unit :=
  match presentArrays s with
  | [] =>
    match s.MD with
    | none => .ok ()
    | some md =>
      if strictIncB md then .ok ()
      else .error (.validation "MD must be strictly increasing.")
  | a :: rest =>
    if rest.all (fun b => b.length = a.length) then
      match s.MD with
      | none => .ok ()
      | some md =>
        if strictIncB md then .ok ()
        else .error (.validation "MD must be strictly increasing.")
    else .error (.validation "All provided arrays must have the same length.")

/-- Embedding of `Survey._ensure_available`. -/
def ensureAvailable : Option (List ℚ) → String → Except SurveyErr (List ℚ)
  | some a, _ => .ok a
  | none, name => .error (.validation (name ++ " is not available in this Survey instance."))

/-- Embedding of `np.min` on a (nonempty) array. -/
def npMin : List ℚ → ℚ
  | [] => 0
  | a :: r => r.foldl min a

/-- Embedding of `np.max` on a (nonempty) array. -/
def npMax : List ℚ → ℚ
  | [] => 0
  | a :: r => r.foldl max a

/-- Embedding of `Survey._check_in_range`: rejects when the query minimum is
below the base's first entry or the query maximum above its last. -/
def checkInRange (query base : List ℚ) : Except SurveyErr Unit :=
  if npMin query < base.headD 0 ∨ base.getLastD 0 < npMax query then
    .error (.range (npMin query) (npMax query) (base.headD 0) (base.getLastD 0))
  else .ok ()

/-- Embedding of `np.interp` over the zipped knot list (x, f(x)); clamps
outside the knots and interpolates linearly inside, exactly as `np.interp`
does over exact arithmetic. -/
def interp (x : ℚ) : List (ℚ × ℚ) → ℚ
  | [] => 0
  | [(_, y0)] => y0
  | (x0, y0) :: (x1, y1) :: rest =>
    if x ≤ x0 then y0
    else if x ≤ x1 then y0 + (x - x0) * (y1 - y0) / (x1 - x0)
    else interp x ((x1, y1) :: rest)

/-- Embedding of `Survey.md2tvd` on an array of query values. -/
def md2tvd (s : Survey) (vals : List ℚ) : Except SurveyErr (List ℚ) :=
  match ensureAvailable s.MD "MD" with
  | .error e => .error e
  | .ok md =>
    match ensureAvailable s.TVD "TVD" with
    | .error e => .error e
    | .ok tvd =>
      match checkInRange vals md with
      | .error e => .error e
      | .ok _ => .ok (vals.map (fun v => interp v (md.zip tvd)))

/-- Embedding of `Survey.tvd2md`: re-checks at call time that `TVD` is
strictly increasing, then range-checks against `TVD` and interpolates `MD`
against it. -/
def tvd2md (s : Survey) (vals : List ℚ) : Except SurveyErr (List ℚ) :=
  match ensureAvailable s.MD "MD" with
  | .error e => .error e
  | .ok md =>
    match ensureAvailable s.TVD "TVD" with
    | .error e => .error e
    | .ok tvd =>
      if ¬ strictIncB tvd then
        .error (.validation "TVD must be strictly increasing for TVD-MD interpolation.")
      else
        match checkInRange vals tvd with
        | .error e => .error e
        | .ok _ => .ok (vals.map (fun v => interp v (tvd.zip md)))

/-- Embedding of `np.rint`: round half to even, as IEEE `rint` does on the
integral-float boundary. -/
def rint (q : ℚ) : ℤ :=
  if q - ⌊q⌋ < 1/2 then ⌊q⌋
  else if 1/2 < q - ⌊q⌋ then ⌊q⌋ + 1
  else if ⌊q⌋ % 2 = 0 then ⌊q⌋ else ⌊q⌋ + 1

/-- Embedding of `np.linspace(0, n-1, m)`: the `m` evenly spaced rationals
`k*(n-1)/(m-1)`. -/
def linspaceIdx (n m : ℕ) : List ℚ :=
  (List.range m).map (fun k : ℕ => (k : ℚ) * ((n : ℚ) - 1) / ((m : ℚ) - 1))

/-- Embedding of `np.unique` on an integer array: sort ascending and drop
duplicates. -/
def npUnique (l : List ℤ) : List ℤ :=
  (l.insertionSort (· ≤ ·)).destutter (· ≠ ·)

/-- Embedding of `Survey.downsample`: evenly spaced rounded indices across
`[0, n-1]`, deduplicated, applied to every present array; all arrays are
returned unchanged when `n <= max_points`; `max_points < 2` raises. -/
def downsample (s : Survey) (max_points : ℤ) : Except SurveyErr (List (List ℚ)) :=
  if max_points < 2 then .error (.validation "max_points must be >= 2.")
  else
    match ensureAvailable s.MD "MD" with
    | .error e => .error e
    | .ok md =>
      if (md.length : ℤ) ≤ max_points then .ok (presentArrays s)
      else
        let idx := npUnique ((linspaceIdx md.length max_points.toNat).map rint)
        .ok ((presentArrays s).map (fun a => idx.map (fun i => a.getD i.toNat 0)))

end Survey

example : Survey.validate ⟨some [0, 1, 2], some [5, 4, 3], none, none, none, none, 0, 0, 0⟩ =
    .ok () := by decide

example : Survey.md2tvd ⟨some [0, 10], some [0, 5], none, none, none, none, 0, 0, 0⟩ [5] =
    .ok [5/2] := by
  norm_num [Survey.md2tvd, Survey.ensureAvailable, Survey.checkInRange,
    Survey.npMin, Survey.npMax, Survey.interp]

example : Survey.downsample ⟨some [0, 1, 2, 3, 4], some [10, 11, 12, 13, 14],
    none, none, none, none, 0, 0, 0⟩ 3 = .ok [[0, 2, 4], [10, 12, 14]] := by
  have h3 : Int.toNat 3 = 3 := rfl
  have h2 : Int.toNat 2 = 2 := rfl
  have h4 : Int.toNat 4 = 4 := rfl
  norm_num [Survey.downsample, Survey.ensureAvailable, Survey.presentArrays, h3, h2, h4,
    Survey.linspaceIdx, Survey.npUnique, Survey.rint, List.range_succ,
    List.insertionSort, List.orderedInsert, List.destutter, List.destutter',
    Int.toNat_ofNat, List.filterMap_cons, List.filterMap_nil]

namespace Survey

theorem foldl_min_le_init (r : List ℚ) : ∀ acc : ℚ, r.foldl min acc ≤ acc := by
  induction r with
  | nil => intro acc; simp
  | cons b rb ih =>
    intro acc
    simpa using le_trans (ih (min acc b)) (min_le_left _ _)

theorem foldl_min_le_mem (r : List ℚ) : ∀ acc : ℚ, ∀ v ∈ r, r.foldl min acc ≤ v := by
  induction r with
  | nil => intro acc v hv; simp at hv
  | cons b rb ih =>
    intro acc v hv
    rcases List.mem_cons.mp hv with hv | hv
    · subst hv
      simpa using le_trans (foldl_min_le_init rb (min acc v)) (min_le_right _ _)
    · simpa using ih (min acc b) v hv

theorem foldl_min_mem (r : List ℚ) :
    ∀ acc : ℚ, r.foldl min acc = acc ∨ r.foldl min acc ∈ r := by
  induction r with
  | nil => intro acc; left; rfl
  | cons b rb ih =>
    intro acc
    rcases ih (min acc b) with h | h
    · rcases min_choice acc b with hm | hm
      · left; simpa [hm] using h
      · right
        rw [List.foldl_cons, h, hm]
        exact List.mem_cons_self _ _
    · right
      simpa using List.mem_cons_of_mem _ h

theorem npMin_le (l : List ℚ) : ∀ v ∈ l, npMin l ≤ v := by
  cases l with
  | nil => intro v hv; simp at hv
  | cons a r =>
    intro v hv
    rcases List.mem_cons.mp hv with hv | hv
    · subst hv; exact foldl_min_le_init r v
    · exact foldl_min_le_mem r a v hv

theorem npMin_mem (l : List ℚ) (h : l ≠ []) : npMin l ∈ l := by
  cases l with
  | nil => exact absurd rfl h
  | cons a r =>
    rcases foldl_min_mem r a with hm | hm
    · rw [npMin, hm]; exact List.mem_cons_self _ _
    · exact List.mem_cons_of_mem _ hm

theorem foldl_max_le_init (r : List ℚ) : ∀ acc : ℚ, acc ≤ r.foldl max acc := by
  induction r with
  | nil => intro acc; simp
  | cons b rb ih =>
    intro acc
    simpa using le_trans (le_max_left _ _) (ih (max acc b))

theorem foldl_max_le_mem (r : List ℚ) : ∀ acc : ℚ, ∀ v ∈ r, v ≤ r.foldl max acc := by
  induction r with
  | nil => intro acc v hv; simp at hv
  | cons b rb ih =>
    intro acc v hv
    rcases List.mem_cons.mp hv with hv | hv
    · subst hv
      simpa using le_trans (le_max_right _ _) (foldl_max_le_init rb (max acc v))
    · simpa using ih (max acc b) v hv

theorem foldl_max_mem (r : List ℚ) :
    ∀ acc : ℚ, r.foldl max acc = acc ∨ r.foldl max acc ∈ r := by
  induction r with
  | nil => intro acc; left; rfl
  | cons b rb ih =>
    intro acc
    rcases ih (max acc b) with h | h
    · rcases max_choice acc b with hm | hm
      · left; simpa [hm] using h
      · right
        rw [List.foldl_cons, h, hm]
        exact List.mem_cons_self _ _
    · right
      simpa using List.mem_cons_of_mem _ h

theorem npMax_le (l : List ℚ) : ∀ v ∈ l, v ≤ npMax l := by
  cases l with
  | nil => intro v hv; simp at hv
  | cons a r =>
    intro v hv
    rcases List.mem_cons.mp hv with hv | hv
    · subst hv; exact foldl_max_le_init r v
    · exact foldl_max_le_mem r a v hv

theorem npMax_mem (l : List ℚ) (h : l ≠ []) : npMax l ∈ l := by
  cases l with
  | nil => exact absurd rfl h
  | cons a r =>
    rcases foldl_max_mem r a with hm | hm
    · rw [npMax, hm]; exact List.mem_cons_self _ _
    · exact List.mem_cons_of_mem _ hm

/-- C8: tvd2md re-checks at call time that TVD is strictly increasing and
fails with a validation error when it is not, even on a Survey that passed
construction-time validation (which checks only array lengths and MD
monotonicity). -/
theorem tvd2md_recheck (s : Survey) (md tvd : List ℚ)
    (hMD : s.MD = some md) (hTVD : s.TVD = some tvd)
    (hvalid : validate s = .ok ()) (hnm : ¬ tvd.Chain' (· < ·))
    (vals : List ℚ) :
    tvd2md s vals =
      .error (.validation "TVD must be strictly increasing for TVD-MD interpolation.") := by
  unfold tvd2md
  rw [hMD, hTVD]
  simp only [ensureAvailable]
  rw [if_pos]
  exact fun h => hnm ((strictIncB_iff tvd).mp h)

/-- C7: md2tvd fails with a range error carrying the query bounds and valid
bounds whenever any query value is strictly below MD's first entry or above
its last, and succeeds with the linear interpolation whenever all query
values lie inside the inclusive range. -/
theorem md2tvd_range (s : Survey) (md tvd : List ℚ)
    (hMD : s.MD = some md) (hTVD : s.TVD = some tvd)
    (hne : md ≠ []) (vals : List ℚ) (hvne : vals ≠ []) :
    ((∃ v ∈ vals, v < md.headD 0 ∨ md.getLastD 0 < v) →
      md2tvd s vals =
        .error (.range (npMin vals) (npMax vals) (md.headD 0) (md.getLastD 0))) ∧
    ((∀ v ∈ vals, md.headD 0 ≤ v ∧ v ≤ md.getLastD 0) →
      md2tvd s vals = .ok (vals.map (fun v => interp v (md.zip tvd)))) := by
  unfold md2tvd
  rw [hMD, hTVD]
  simp only [ensureAvailable]
  constructor
  · rintro ⟨v, hv, hout⟩
    have hcond : npMin vals < md.headD 0 ∨ md.getLastD 0 < npMax vals := by
      rcases hout with hlt | hgt
      · exact Or.inl (lt_of_le_of_lt (npMin_le vals v hv) hlt)
      · exact Or.inr (lt_of_lt_of_le hgt (npMax_le vals v hv))
    rw [checkInRange, if_pos hcond]
  · intro hin
    have hcond : ¬ (npMin vals < md.headD 0 ∨ md.getLastD 0 < npMax vals) := by
      push_neg
      exact ⟨(hin (npMin vals) (npMin_mem vals hvne)).1,
        (hin (npMax vals) (npMax_mem vals hvne)).2⟩
    rw [checkInRange, if_neg hcond]

end Survey

/-- Witness for C8: a Survey that passes construction-time validation but has
non-monotonic TVD is rejected by tvd2md at call time. -/
theorem tvd2md_recheck_witness :
    Survey.tvd2md ⟨some [0, 1], some [1, 0], none, none, none, none, 0, 0, 0⟩ [0] =
      .error (.validation "TVD must be strictly increasing for TVD-MD interpolation.") :=
  Survey.tvd2md_recheck _ [0, 1] [1, 0] rfl rfl (by decide)
    (fun hc => absurd ((Survey.strictIncB_iff _).mpr hc) (by decide)) [0]

/-- Witness for C7: a below-range query fails with the range error naming
both bounds, and an in-range query interpolates. -/
theorem md2tvd_range_witness :
    Survey.md2tvd ⟨some [0, 10], some [0, 5], none, none, none, none, 0, 0, 0⟩ [20] =
      .error (.range 20 20 0 10) ∧
    Survey.md2tvd ⟨some [0, 10], some [0, 5], none, none, none, none, 0, 0, 0⟩ [5] =
      .ok [Survey.interp 5 ([0, 10].zip [0, 5])] :=
  ⟨(Survey.md2tvd_range _ [0, 10] [0, 5] rfl rfl (by decide) [20] (by decide)).1
      ⟨20, by decide, Or.inr (by decide)⟩,
   (Survey.md2tvd_range _ [0, 10] [0, 5] rfl rfl (by decide) [5] (by decide)).2
      (by intro v hv; simp at hv; subst hv; constructor <;> decide)⟩

namespace Survey

theorem interp_nil (x : ℚ) : interp x [] = 0 := rfl

theorem interp_single (x x0 y0 : ℚ) : interp x [(x0, y0)] = y0 := rfl

theorem interp_cons_cons (x x0 y0 x1 y1 : ℚ) (rest : List (ℚ × ℚ)) :
    interp x ((x0, y0) :: (x1, y1) :: rest) =
      if x ≤ x0 then y0
      else if x ≤ x1 then y0 + (x - x0) * (y1 - y0) / (x1 - x0)
      else interp x ((x1, y1) :: rest) := rfl

theorem getLastD_cons_cons {α : Type} (p q : α) (rt : List α) (d : α) :
    ((p :: q :: rt).getLastD d) = ((q :: rt).getLastD d) := by
  rw [List.getLastD_cons, List.getLastD_cons, List.getLastD_cons]

theorem head_le_last_snd : ∀ (rest : List (ℚ × ℚ)) (x0 y0 : ℚ),
    List.Chain' (fun p q : ℚ × ℚ => p.2 < q.2) ((x0, y0) :: rest) →
    y0 ≤ (((x0, y0) :: rest).getLastD (0, 0)).2 := by
  intro rest
  induction rest with
  | nil => intro x0 y0 _; simp [List.getLastD]
  | cons p rt ih =>
    intro x0 y0 h
    obtain ⟨x1, y1⟩ := p
    have h1 : y0 < y1 := (List.chain'_cons.mp h).1
    have h2 := ih x1 y1 (List.chain'_cons.mp h).2
    rw [getLastD_cons_cons]
    exact le_trans (le_of_lt h1) h2

theorem interp_ge_head : ∀ (rest : List (ℚ × ℚ)) (x0 y0 x : ℚ),
    List.Chain' (fun p q : ℚ × ℚ => p.1 < q.1) ((x0, y0) :: rest) →
    List.Chain' (fun p q : ℚ × ℚ => p.2 < q.2) ((x0, y0) :: rest) →
    y0 ≤ interp x ((x0, y0) :: rest) := by
  intro rest
  induction rest with
  | nil => intro x0 y0 x _ _; rw [interp_single]
  | cons p rt ih =>
    intro x0 y0 x hf hs
    obtain ⟨x1, y1⟩ := p
    have hx01 : x0 < x1 := (List.chain'_cons.mp hf).1
    have hy01 : y0 < y1 := (List.chain'_cons.mp hs).1
    rw [interp_cons_cons]
    by_cases h0 : x ≤ x0
    · rw [if_pos h0]
    · rw [if_neg h0]
      by_cases h1 : x ≤ x1
      · rw [if_pos h1]
        have hnn : 0 ≤ (x - x0) * (y1 - y0) / (x1 - x0) :=
          div_nonneg (mul_nonneg (by linarith) (by linarith)) (by linarith)
        linarith
      · rw [if_neg h1]
        exact le_trans (le_of_lt hy01)
          (ih x1 y1 x (List.chain'_cons.mp hf).2 (List.chain'_cons.mp hs).2)

theorem interp_le_last : ∀ (rest : List (ℚ × ℚ)) (x0 y0 x : ℚ),
    List.Chain' (fun p q : ℚ × ℚ => p.1 < q.1) ((x0, y0) :: rest) →
    List.Chain' (fun p q : ℚ × ℚ => p.2 < q.2) ((x0, y0) :: rest) →
    x ≤ (((x0, y0) :: rest).getLastD (0, 0)).1 →
    interp x ((x0, y0) :: rest) ≤ (((x0, y0) :: rest).getLastD (0, 0)).2 := by
  intro rest
  induction rest with
  | nil => intro x0 y0 x _ _ _; rw [interp_single]; simp [List.getLastD]
  | cons p rt ih =>
    intro x0 y0 x hf hs hx
    obtain ⟨x1, y1⟩ := p
    have hx01 : x0 < x1 := (List.chain'_cons.mp hf).1
    have hy01 : y0 < y1 := (List.chain'_cons.mp hs).1
    rw [getLastD_cons_cons] at hx ⊢
    rw [interp_cons_cons]
    by_cases h0 : x ≤ x0
    · rw [if_pos h0]
      exact le_trans (le_of_lt hy01)
        (head_le_last_snd rt x1 y1 (List.chain'_cons.mp hs).2)
    · rw [if_neg h0]
      by_cases h1 : x ≤ x1
      · rw [if_pos h1]
        have hy1 : y1 ≤ (((x1, y1) :: rt).getLastD (0, 0)).2 :=
          head_le_last_snd rt x1 y1 (List.chain'_cons.mp hs).2
        have hseg : (x - x0) * (y1 - y0) / (x1 - x0) ≤ y1 - y0 := by
          rw [div_le_iff (by linarith : (0:ℚ) < x1 - x0)]
          nlinarith
        linarith
      · rw [if_neg h1]
        exact ih x1 y1 x (List.chain'_cons.mp hf).2 (List.chain'_cons.mp hs).2 hx

theorem interp_gt_head : ∀ (rest : List (ℚ × ℚ)) (x0 y0 x : ℚ),
    List.Chain' (fun p q : ℚ × ℚ => p.1 < q.1) ((x0, y0) :: rest) →
    List.Chain' (fun p q : ℚ × ℚ => p.2 < q.2) ((x0, y0) :: rest) →
    x0 < x → x ≤ (((x0, y0) :: rest).getLastD (0, 0)).1 →
    y0 < interp x ((x0, y0) :: rest) := by
  intro rest
  induction rest with
  | nil =>
    intro x0 y0 x _ _ hgt hle
    simp only [List.getLastD] at hle
    exact absurd hle (not_le.mpr hgt)
  | cons p rt ih =>
    intro x0 y0 x hf hs hgt hle
    obtain ⟨x1, y1⟩ := p
    have hx01 : x0 < x1 := (List.chain'_cons.mp hf).1
    have hy01 : y0 < y1 := (List.chain'_cons.mp hs).1
    rw [getLastD_cons_cons] at hle
    rw [interp_cons_cons, if_neg (not_le.mpr hgt)]
    by_cases h1 : x ≤ x1
    · rw [if_pos h1]
      have hpos : 0 < (x - x0) * (y1 - y0) / (x1 - x0) :=
        div_pos (mul_pos (by linarith) (by linarith)) (by linarith)
      linarith
    · rw [if_neg h1]
      exact lt_trans hy01
        (ih x1 y1 x (List.chain'_cons.mp hf).2 (List.chain'_cons.mp hs).2
          (lt_of_not_le h1) hle)

theorem interp_roundtrip : ∀ (rest : List (ℚ × ℚ)) (x0 y0 x : ℚ),
    List.Chain' (fun p q : ℚ × ℚ => p.1 < q.1) ((x0, y0) :: rest) →
    List.Chain' (fun p q : ℚ × ℚ => p.2 < q.2) ((x0, y0) :: rest) →
    x0 ≤ x → x ≤ (((x0, y0) :: rest).getLastD (0, 0)).1 →
    interp (interp x ((x0, y0) :: rest)) (((x0, y0) :: rest).map Prod.swap) = x := by
  intro rest
  induction rest with
  | nil =>
    intro x0 y0 x _ _ hlo hhi
    simp only [List.getLastD] at hhi
    have hx : x = x0 := le_antisymm hhi hlo
    subst hx
    simp [interp_single, Prod.swap]
  | cons p rt ih =>
    intro x0 y0 x hf hs hlo hhi
    obtain ⟨x1, y1⟩ := p
    have hx01 : x0 < x1 := (List.chain'_cons.mp hf).1
    have hy01 : y0 < y1 := (List.chain'_cons.mp hs).1
    rw [getLastD_cons_cons] at hhi
    simp only [List.map_cons, Prod.swap_prod_mk]
    by_cases h0 : x ≤ x0
    · have hy : interp x ((x0, y0) :: (x1, y1) :: rt) = y0 := by
        rw [interp_cons_cons, if_pos h0]
      rw [hy, interp_cons_cons, if_pos le_rfl]
      exact (le_antisymm h0 hlo).symm
    · by_cases h1 : x ≤ x1
      · have hy : interp x ((x0, y0) :: (x1, y1) :: rt) =
            y0 + (x - x0) * (y1 - y0) / (x1 - x0) := by
          rw [interp_cons_cons, if_neg h0, if_pos h1]
        have hinc : 0 < (x - x0) * (y1 - y0) / (x1 - x0) :=
          div_pos (mul_pos (by linarith [lt_of_not_le h0]) (by linarith)) (by linarith)
        have hseg : (x - x0) * (y1 - y0) / (x1 - x0) ≤ y1 - y0 := by
          rw [div_le_iff (by linarith : (0:ℚ) < x1 - x0)]
          nlinarith
        rw [hy, interp_cons_cons,
          if_neg (by linarith : ¬ y0 + (x - x0) * (y1 - y0) / (x1 - x0) ≤ y0),
          if_pos (by linarith : y0 + (x - x0) * (y1 - y0) / (x1 - x0) ≤ y1)]
        have hne0 : x1 - x0 ≠ 0 := by linarith
        have hne1 : y1 - y0 ≠ 0 := by linarith
        field_simp
        ring
      · have hx1 : x1 < x := lt_of_not_le h1
        have hy : interp x ((x0, y0) :: (x1, y1) :: rt) = interp x ((x1, y1) :: rt) := by
          rw [interp_cons_cons, if_neg h0, if_neg h1]
        have hgt : y1 < interp x ((x1, y1) :: rt) :=
          interp_gt_head rt x1 y1 x (List.chain'_cons.mp hf).2
            (List.chain'_cons.mp hs).2 hx1 hhi
        rw [hy, interp_cons_cons,
          if_neg (by linarith : ¬ interp x ((x1, y1) :: rt) ≤ y0),
          if_neg (by linarith : ¬ interp x ((x1, y1) :: rt) ≤ y1)]
        have := ih x1 y1 x (List.chain'_cons.mp hf).2 (List.chain'_cons.mp hs).2
          (le_of_lt hx1) hhi
        simpa only [List.map_cons, Prod.swap_prod_mk] using this

end Survey

namespace Survey

theorem getLastD_irrel {α : Type} (l : List α) (h : l ≠ []) (d e : α) :
    l.getLastD d = l.getLastD e := by
  cases l with
  | nil => exact absurd rfl h
  | cons a t => rw [List.getLastD_cons, List.getLastD_cons]

theorem zip_getLastD : ∀ (xs ys : List ℚ), xs.length = ys.length → xs ≠ [] →
    ((xs.zip ys).getLastD (0, 0)) = (xs.getLastD 0, ys.getLastD 0) := by
  intro xs
  induction xs with
  | nil => intro ys _ h; exact absurd rfl h
  | cons x0 xt ih =>
    intro ys hlen _
    cases ys with
    | nil => simp at hlen
    | cons y0 yt =>
      cases xt with
      | nil =>
        have hyt : yt = [] := List.length_eq_zero.mp (by simpa using hlen.symm)
        subst hyt
        simp [List.getLastD]
      | cons x1 xt2 =>
        cases yt with
        | nil => simp at hlen
        | cons y1 yt2 =>
          have hlen2 : (x1 :: xt2).length = (y1 :: yt2).length := by simpa using hlen
          have hzne : (x1 :: xt2).zip (y1 :: yt2) ≠ [] := by
            rw [List.zip_cons_cons]; simp
          calc ((x0 :: x1 :: xt2).zip (y0 :: y1 :: yt2)).getLastD (0, 0)
              = ((x0, y0) :: (x1 :: xt2).zip (y1 :: yt2)).getLastD (0, 0) := by
                rw [List.zip_cons_cons]
            _ = ((x1 :: xt2).zip (y1 :: yt2)).getLastD (x0, y0) :=
                List.getLastD_cons _ _ _
            _ = ((x1 :: xt2).zip (y1 :: yt2)).getLastD (0, 0) :=
                getLastD_irrel _ hzne _ _
            _ = ((x1 :: xt2).getLastD 0, (y1 :: yt2).getLastD 0) :=
                ih _ hlen2 (by simp)
            _ = ((x0 :: x1 :: xt2).getLastD 0, (y0 :: y1 :: yt2).getLastD 0) := by
                rw [getLastD_cons_cons, getLastD_cons_cons]

theorem chain'_zip_fst : ∀ (xs ys : List ℚ), xs.Chain' (· < ·) →
    (xs.zip ys).Chain' (fun p q : ℚ × ℚ => p.1 < q.1) := by
  intro xs
  induction xs with
  | nil => intro ys _; simp
  | cons x0 xt ih =>
    intro ys h
    cases ys with
    | nil => simp
    | cons y0 yt =>
      cases xt with
      | nil => simp
      | cons x1 xt2 =>
        cases yt with
        | nil => simp [List.zip_nil_right]
        | cons y1 yt2 =>
          rw [List.zip_cons_cons]
          refine List.chain'_cons'.mpr ⟨?_, ?_⟩
          · intro q hq
            rw [List.zip_cons_cons] at hq
            simp only [List.head?_cons, Option.mem_def, Option.some.injEq] at hq
            subst hq
            exact (List.chain'_cons.mp h).1
          · have := ih (y1 :: yt2) (List.chain'_cons.mp h).2
            exact this

theorem chain'_zip_snd : ∀ (xs ys : List ℚ), ys.Chain' (· < ·) →
    (xs.zip ys).Chain' (fun p q : ℚ × ℚ => p.2 < q.2) := by
  intro xs
  induction xs with
  | nil => intro ys _; simp
  | cons x0 xt ih =>
    intro ys h
    cases ys with
    | nil => simp
    | cons y0 yt =>
      cases xt with
      | nil => simp
      | cons x1 xt2 =>
        cases yt with
        | nil => simp [List.zip_nil_right]
        | cons y1 yt2 =>
          rw [List.zip_cons_cons]
          refine List.chain'_cons'.mpr ⟨?_, ?_⟩
          · intro q hq
            rw [List.zip_cons_cons] at hq
            simp only [List.head?_cons, Option.mem_def, Option.some.injEq] at hq
            subst hq
            exact (List.chain'_cons.mp h).1
          · exact ih (y1 :: yt2) (List.chain'_cons.mp h).2

/-- C6: for a Trajectory with strictly increasing MD and strictly increasing
TVD, tvd_to_md inverts md_to_tvd exactly (over the exact arithmetic of the
embedding) for every query inside the MD range. -/
theorem md_tvd_roundtrip (s : Survey) (md tvd : List ℚ)
    (hMD : s.MD = some md) (hTVD : s.TVD = some tvd)
    (hm1 : md.Chain' (· < ·)) (hm2 : tvd.Chain' (· < ·))
    (hlen : md.length = tvd.length) (hne : md ≠ [])
    (x : ℚ) (hlo : md.headD 0 ≤ x) (hhi : x ≤ md.getLastD 0) :
    (md2tvd s [x]).bind (fun l => tvd2md s l) = .ok [x] := by
  obtain ⟨m0, mr, rfl⟩ : ∃ m0 mr, md = m0 :: mr := by
    cases md with
    | nil => exact absurd rfl hne
    | cons a b => exact ⟨a, b, rfl⟩
  obtain ⟨t0, tr, rfl⟩ : ∃ t0 tr, tvd = t0 :: tr := by
    cases tvd with
    | nil => simp at hlen
    | cons a b => exact ⟨a, b, rfl⟩
  have hzip : (m0 :: mr).zip (t0 :: tr) = (m0, t0) :: mr.zip tr :=
    List.zip_cons_cons
  have hcf : ((m0, t0) :: mr.zip tr).Chain' (fun p q : ℚ × ℚ => p.1 < q.1) := by
    rw [← hzip]; exact chain'_zip_fst _ _ hm1
  have hcs : ((m0, t0) :: mr.zip tr).Chain' (fun p q : ℚ × ℚ => p.2 < q.2) := by
    rw [← hzip]; exact chain'_zip_snd _ _ hm2
  have hlast : (((m0, t0) :: mr.zip tr).getLastD (0, 0)) =
      ((m0 :: mr).getLastD 0, (t0 :: tr).getLastD 0) := by
    rw [← hzip]; exact zip_getLastD _ _ hlen (by simp)
  have hlast1 : (((m0, t0) :: mr.zip tr).getLastD (0, 0)).1 = (m0 :: mr).getLastD 0 := by
    rw [hlast]
  have hlast2 : (((m0, t0) :: mr.zip tr).getLastD (0, 0)).2 = (t0 :: tr).getLastD 0 := by
    rw [hlast]
  have hlo' : m0 ≤ x := hlo
  have hhi' : x ≤ (((m0, t0) :: mr.zip tr).getLastD (0, 0)).1 := by rw [hlast1]; exact hhi
  have hylo : t0 ≤ interp x ((m0, t0) :: mr.zip tr) :=
    interp_ge_head _ _ _ _ hcf hcs
  have hyhi : interp x ((m0, t0) :: mr.zip tr) ≤ (t0 :: tr).getLastD 0 := by
    rw [← hlast2]
    exact interp_le_last _ _ _ _ hcf hcs hhi'
  have hrt : interp (interp x ((m0, t0) :: mr.zip tr)) ((t0 :: tr).zip (m0 :: mr)) = x := by
    rw [← List.zip_swap (m0 :: mr) (t0 :: tr), hzip]
    exact interp_roundtrip _ _ _ _ hcf hcs hlo' hhi'
  unfold md2tvd
  rw [hMD, hTVD]
  simp only [ensureAvailable]
  rw [checkInRange, if_neg (by
    push_neg
    constructor
    · simpa [npMin] using hlo
    · simpa [npMax] using hhi)]
  simp only [List.map_cons, List.map_nil, Except.bind]
  unfold tvd2md
  rw [hMD, hTVD]
  simp only [ensureAvailable]
  rw [hzip, if_neg (not_not_intro ((strictIncB_iff _).mpr hm2))]
  rw [checkInRange, if_neg (by
    push_neg
    constructor
    · simpa [npMin] using hylo
    · simpa [npMax] using hyhi)]
  simp only [List.map_cons, List.map_nil, hrt]

end Survey

/-- Witness for C6: a concrete in-range roundtrip query. -/
theorem md_tvd_roundtrip_witness :
    (Survey.md2tvd ⟨some [0, 10], some [0, 5], none, none, none, none, 0, 0, 0⟩ [4]).bind
      (fun l => Survey.tvd2md ⟨some [0, 10], some [0, 5], none, none, none, none, 0, 0, 0⟩ l) =
      .ok [4] :=
  Survey.md_tvd_roundtrip _ [0, 10] [0, 5] rfl rfl
    ((Survey.strictIncB_iff _).mp (by decide)) ((Survey.strictIncB_iff _).mp (by decide))
    rfl (by decide) 4 (by decide) (by decide)

namespace Survey

theorem rint_bounds (x : ℚ) : x - 1/2 ≤ (rint x : ℚ) ∧ (rint x : ℚ) ≤ x + 1/2 := by
  have hfl : (⌊x⌋ : ℚ) ≤ x := Int.floor_le x
  have hfu : x < ⌊x⌋ + 1 := Int.lt_floor_add_one x
  unfold rint
  split_ifs with h1 h2 h3
  · constructor <;> push_cast <;> linarith
  · constructor <;> push_cast <;> linarith
  · have hh : x - ⌊x⌋ = 1/2 := le_antisymm (not_lt.mp h2) (not_lt.mp h1)
    constructor <;> push_cast <;> linarith
  · have hh : x - ⌊x⌋ = 1/2 := le_antisymm (not_lt.mp h2) (not_lt.mp h1)
    constructor <;> push_cast <;> linarith

theorem rint_intCast (z : ℤ) : rint (z : ℚ) = z := by
  unfold rint
  rw [Int.floor_intCast]
  norm_num

theorem rint_lt (x y : ℚ) (h : x + 1 < y) : rint x < rint y := by
  have hx := (rint_bounds x).2
  have hy := (rint_bounds y).1
  have hq : (rint x : ℚ) < (rint y : ℚ) := by linarith
  exact_mod_cast hq

end Survey


namespace Survey

theorem idx_length (n m : ℕ) : ((linspaceIdx n m).map rint).length = m := by
  rw [List.length_map, linspaceIdx, List.length_map, List.length_range]

theorem idx_head (n m : ℕ) (hm : 1 ≤ m) :
    ((linspaceIdx n m).map rint).headD 0 = 0 := by
  obtain ⟨k, rfl⟩ : ∃ k, m = k + 1 := ⟨m - 1, by omega⟩
  rw [linspaceIdx, List.map_map, List.range_succ_eq_map]
  rw [List.map_cons, List.headD_cons]
  simp only [Function.comp]
  have h0 : ((0:ℕ) : ℚ) * ((n : ℚ) - 1) / (((k+1 : ℕ) : ℚ) - 1) = ((0:ℤ):ℚ) := by
    push_cast
    ring
  rw [h0, rint_intCast]

theorem idx_last (n m : ℕ) (hm : 2 ≤ m) :
    ((linspaceIdx n m).map rint).getLastD 0 = (n:ℤ) - 1 := by
  obtain ⟨k, rfl⟩ : ∃ k, m = k + 1 := ⟨m - 1, by omega⟩
  have hk1 : 1 ≤ k := by omega
  have hkQ : (0:ℚ) < (k:ℚ) := by exact_mod_cast Nat.lt_of_lt_of_le Nat.zero_lt_one hk1
  rw [linspaceIdx, List.map_map, List.range_succ, List.map_append]
  rw [List.map_cons, List.map_nil, List.getLastD_concat]
  simp only [Function.comp]
  have hq : ((k:ℕ) : ℚ) * ((n : ℚ) - 1) / (((k+1 : ℕ) : ℚ) - 1) = (((n:ℤ) - 1 : ℤ):ℚ) := by
    push_cast
    field_simp
  rw [hq, rint_intCast]

theorem idx_chain (n m : ℕ) (hm : 2 ≤ m) (hn : m < n) :
    ((linspaceIdx n m).map rint).Chain' (· < ·) := by
  obtain ⟨k, rfl⟩ : ∃ k, m = k + 1 := ⟨m - 1, by omega⟩
  have hk1 : 1 ≤ k := by omega
  have hB : (0:ℚ) < (k:ℚ) := by exact_mod_cast Nat.lt_of_lt_of_le Nat.zero_lt_one hk1
  have hk2 : k + 2 ≤ n := by omega
  have hk2Q : ((k:ℚ) + 2) ≤ (n:ℚ) := by exact_mod_cast hk2
  have hkn : (k:ℚ) < (n:ℚ) - 1 := by linarith
  rw [linspaceIdx, List.map_map, List.chain'_map, List.chain'_range_succ]
  intro j hj
  simp only [Function.comp]
  apply rint_lt
  push_cast
  rw [show ((k:ℚ) + 1) - 1 = (k:ℚ) from by ring]
  have hdiv : (1:ℚ) < ((n:ℚ) - 1) / (k:ℚ) := (one_lt_div hB).mpr hkn
  have hring : ((j:ℚ) + 1) * ((n:ℚ) - 1) / (k:ℚ) =
      (j:ℚ) * ((n:ℚ) - 1) / (k:ℚ) + ((n:ℚ) - 1) / (k:ℚ) := by ring
  linarith

theorem idx_npUnique (n m : ℕ) (hm : 2 ≤ m) (hn : m < n) :
    npUnique ((linspaceIdx n m).map rint) = (linspaceIdx n m).map rint := by
  have hc := idx_chain n m hm hn
  unfold npUnique
  have hsorted : List.Sorted (· ≤ ·) ((linspaceIdx n m).map rint) :=
    (List.chain'_iff_pairwise.mp hc).imp le_of_lt
  rw [List.Sorted.insertionSort_eq hsorted]
  exact (List.destutter_eq_self_iff _ _).mpr (hc.imp fun {a b} h => ne_of_lt h)

theorem headD_map_ne {α β : Type} (f : α → β) (l : List α) (h : l ≠ []) (d : β) (d2 : α) :
    (l.map f).headD d = f (l.headD d2) := by
  cases l with
  | nil => exact absurd rfl h
  | cons a t => simp

theorem getLastD_map_ne {α β : Type} (f : α → β) : ∀ (l : List α), l ≠ [] →
    ∀ (d : β) (d2 : α), (l.map f).getLastD d = f (l.getLastD d2) := by
  intro l
  induction l with
  | nil => intro h; exact absurd rfl h
  | cons a t ih =>
    intro _ d d2
    cases t with
    | nil => simp [List.getLastD]
    | cons b t2 =>
      rw [List.map_cons, List.getLastD_cons, List.getLastD_cons]
      exact ih (by simp) (f a) a

theorem getD_zero (a : List ℚ) (h : a ≠ []) : a.getD 0 0 = a.headD 0 := by
  cases a with
  | nil => exact absurd rfl h
  | cons x t => rfl

theorem getD_last : ∀ (a : List ℚ), a ≠ [] → a.getD (a.length - 1) 0 = a.getLastD 0 := by
  intro a
  induction a with
  | nil => intro h; exact absurd rfl h
  | cons x t ih =>
    intro _
    cases t with
    | nil => rfl
    | cons y t2 =>
      have hlen : (x :: y :: t2).length - 1 = ((y :: t2).length - 1) + 1 := by
        simp only [List.length_cons]
        omega
      rw [hlen, List.getD_cons_succ, List.getLastD_cons,
        getLastD_irrel (y :: t2) (by simp) x 0]
      exact ih (by simp)

theorem validate_lengths (s : Survey) (h : validate s = .ok ()) :
    ∀ a ∈ presentArrays s, ∀ b ∈ presentArrays s, a.length = b.length := by
  unfold validate at h
  split at h
  next heq =>
    intro a ha
    rw [heq] at ha
    simp at ha
  next a0 rest heq =>
    intro a ha b hb
    rw [heq] at ha hb
    split_ifs at h with hall
    have key : ∀ c ∈ a0 :: rest, c.length = a0.length := by
      intro c hc
      rcases List.mem_cons.mp hc with rfl | hc
      · rfl
      · exact of_decide_eq_true (List.all_eq_true.mp hall c hc)
    rw [key a ha, key b hb]

theorem MD_mem_presentArrays (s : Survey) (md : List ℚ) (hMD : s.MD = some md) :
    md ∈ presentArrays s := by
  unfold presentArrays
  rw [hMD]
  simp

end Survey

namespace Survey

theorem forall₂_map_self (g : List ℚ → List ℚ)
    (R : List ℚ → List ℚ → Prop) :
    ∀ l : List (List ℚ), (∀ a ∈ l, R (g a) a) → List.Forall₂ R (l.map g) l := by
  intro l
  induction l with
  | nil => intro _; simp
  | cons a t ih =>
    intro h
    rw [List.map_cons]
    exact List.Forall₂.cons (h a (List.mem_cons_self _ _))
      (ih fun b hb => h b (List.mem_cons_of_mem _ hb))

theorem forall₂_self (R : List ℚ → List ℚ → Prop) :
    ∀ l : List (List ℚ), (∀ a ∈ l, R a a) → List.Forall₂ R l l := by
  intro l
  induction l with
  | nil => intro _; simp
  | cons a t ih =>
    intro h
    exact List.Forall₂.cons (h a (List.mem_cons_self _ _))
      (ih fun b hb => h b (List.mem_cons_of_mem _ hb))

/-- C4: downsample fails with a validation error when max_points < 2; for
max_points >= 2 it returns all present arrays unchanged when n <= max_points,
and in every case returns arrays whose first and last entries equal the
original first and last entries, with length exactly min(max_points, n). -/
theorem downsample_spec (s : Survey) (md : List ℚ) (hMD : s.MD = some md)
    (hval : validate s = .ok ()) (m : ℤ) :
    (m < 2 → downsample s m = .error (.validation "max_points must be >= 2.")) ∧
    (2 ≤ m → (md.length : ℤ) ≤ m → downsample s m = .ok (presentArrays s)) ∧
    (2 ≤ m → ∃ out, downsample s m = .ok out ∧
      List.Forall₂ (fun r (a : List ℚ) =>
        r.length = min m.toNat md.length ∧ r.headD 0 = a.headD 0 ∧
        r.getLastD 0 = a.getLastD 0) out (presentArrays s)) := by
  have hmd_mem := MD_mem_presentArrays s md hMD
  have hlens := validate_lengths s hval
  refine ⟨?_, ?_, ?_⟩
  · intro hm
    unfold downsample
    rw [if_pos hm]
  · intro hm hle
    unfold downsample
    rw [if_neg (not_lt.mpr hm), hMD]
    simp only [ensureAvailable]
    rw [if_pos hle]
  · intro hm
    by_cases hle : (md.length : ℤ) ≤ m
    · refine ⟨presentArrays s, ?_, ?_⟩
      · unfold downsample
        rw [if_neg (not_lt.mpr hm), hMD]
        simp only [ensureAvailable]
        rw [if_pos hle]
      · apply forall₂_self
        intro a ha
        have hlen : a.length = md.length := hlens a ha md hmd_mem
        have hmin : min m.toNat md.length = md.length :=
          min_eq_right (by omega)
        exact ⟨by rw [hlen, hmin], rfl, rfl⟩
    · have hn2 : 2 ≤ m.toNat := by omega
      have hnm : m.toNat < md.length := by omega
      have hL := idx_npUnique md.length m.toNat hn2 hnm
      have hLlen := idx_length md.length m.toNat
      have hLne : (linspaceIdx md.length m.toNat).map rint ≠ [] := by
        intro he
        rw [he] at hLlen
        simp at hLlen
        omega
      have hLhead := idx_head md.length m.toNat (by omega)
      have hLlast := idx_last md.length m.toNat hn2
      refine ⟨(presentArrays s).map
        (fun a => ((linspaceIdx md.length m.toNat).map rint).map
          (fun i => a.getD i.toNat 0)), ?_, ?_⟩
      · unfold downsample
        rw [if_neg (not_lt.mpr hm), hMD]
        simp only [ensureAvailable]
        rw [if_neg hle, hL]
      · apply forall₂_map_self
        intro a ha
        have hlen : a.length = md.length := hlens a ha md hmd_mem
        have hane : a ≠ [] := by
          intro he
          rw [he] at hlen
          simp at hlen
          omega
        refine ⟨?_, ?_, ?_⟩
        · rw [List.length_map, hLlen]
          exact (min_eq_left (le_of_lt hnm)).symm
        · rw [headD_map_ne _ _ hLne 0 0, hLhead]
          show a.getD (Int.toNat 0) 0 = a.headD 0
          rw [Int.toNat_zero]
          exact getD_zero a hane
        · rw [getLastD_map_ne _ _ hLne 0 0, hLlast]
          show a.getD ((md.length : ℤ) - 1).toNat 0 = a.getLastD 0
          have htn : ((md.length : ℤ) - 1).toNat = md.length - 1 := by omega
          rw [htn, ← hlen]
          exact getD_last a hane

end Survey

/-- Witness for C4 at a concrete five-station survey: max_points 1 raises,
max_points 9 returns the arrays unchanged, and max_points 3 downsamples with
endpoints preserved. -/
theorem downsample_spec_witness :
    (Survey.downsample ⟨some [0, 1, 2, 3, 4], some [10, 11, 12, 13, 14],
        none, none, none, none, 0, 0, 0⟩ 1 =
      .error (.validation "max_points must be >= 2.")) ∧
    (Survey.downsample ⟨some [0, 1, 2, 3, 4], some [10, 11, 12, 13, 14],
        none, none, none, none, 0, 0, 0⟩ 9 =
      .ok (Survey.presentArrays ⟨some [0, 1, 2, 3, 4], some [10, 11, 12, 13, 14],
        none, none, none, none, 0, 0, 0⟩)) ∧
    (∃ out, Survey.downsample ⟨some [0, 1, 2, 3, 4], some [10, 11, 12, 13, 14],
        none, none, none, none, 0, 0, 0⟩ 3 = .ok out ∧
      List.Forall₂ (fun r (a : List ℚ) =>
        r.length = min (Int.toNat 3) (List.length ([0, 1, 2, 3, 4] : List ℚ)) ∧
        r.headD 0 = a.headD 0 ∧ r.getLastD 0 = a.getLastD 0) out
        (Survey.presentArrays ⟨some [0, 1, 2, 3, 4], some [10, 11, 12, 13, 14],
          none, none, none, none, 0, 0, 0⟩)) :=
  ⟨(Survey.downsample_spec _ [0, 1, 2, 3, 4] rfl (by decide) 1).1 (by decide),
   (Survey.downsample_spec _ [0, 1, 2, 3, 4] rfl (by decide) 9).2.1 (by decide) (by decide),
   (Survey.downsample_spec _ [0, 1, 2, 3, 4] rfl (by decide) 3).2.2 (by decide)⟩

/-! ## Static geometry methods of `Survey`, over `ℝ`

`inc2tvd`, `off2tvd` and `minimum_curvature` are `@staticmethod`s taking
their station arrays as parameters; they use `cos`, `sin`, `arccos`, `tan`
and `sqrt`, so they are embedded over `ℝ`.  IEEE NaN (produced by
`np.sqrt` of a negative argument, which warns but does not raise) is
modelled by `Option ℝ` with `none` for NaN, propagated through addition. -/

namespace Survey

/-- Embedding of `np.deg2rad`. -/
noncomputable def deg2rad (x : ℝ) : ℝ := x * (Real.pi / 180)

/-- Embedding of `np.clip(x, lo, hi)`. -/
noncomputable def npClip (x lo hi : ℝ) : ℝ := min (max x lo) hi

/-- Embedding of `np.diff`. -/
def diffR : List ℝ → List ℝ
  | a :: b :: r => (b - a) :: diffR (b :: r)
  | _ => []

/-- Running-sum helper for `np.cumsum` (the accumulator is the previous
partial sum). -/
noncomputable def cumsumFrom (acc : ℝ) : List ℝ → List ℝ
  | [] => []
  | x :: r => (acc + x) :: cumsumFrom (acc + x) r

/-- Embedding of `np.cumsum` over `ℝ`. -/
noncomputable def cumsum : List ℝ → List ℝ
  | [] => []
  | x :: r => x :: cumsumFrom x r

/-- Embedding of float `sqrt`: NaN (`none`) on a negative argument, which
`np.sqrt` produces with only a RuntimeWarning, never an exception. -/
noncomputable def nansqrt (x : ℝ) : Option ℝ :=
  if x < 0 then none else some (Real.sqrt x)

/-- NaN-propagating addition. -/
noncomputable def addN : Option ℝ → Option ℝ → Option ℝ
  | some a, some b => some (a + b)
  | _, _ => none

/-- Running-sum helper for `np.cumsum` over possibly-NaN values. -/
noncomputable def cumsumNFrom (acc : Option ℝ) : List (Option ℝ) → List (Option ℝ)
  | [] => []
  | x :: r => addN acc x :: cumsumNFrom (addN acc x) r

/-- Embedding of `np.cumsum` over possibly-NaN values. -/
noncomputable def cumsumN : List (Option ℝ) → List (Option ℝ)
  | [] => []
  | x :: r => x :: cumsumNFrom x r

/-- Embedding of `Survey.inc2tvd` (tangential approximation): seeds the
output with `MD.copy()` (so element 0 is `MD[0]`) and overwrites the tail
with `cumsum(diff(MD) * cos(deg2rad(INC[1:])))`. -/
noncomputable def inc2tvd (INC MD : List ℝ) : Except SurveyErr (List ℝ) :=
  if MD.Chain' (· < ·) then
    match MD with
    | [] => .ok []
    | md0 :: _ =>
      .ok (md0 :: cumsum (List.zipWith
        (fun off inc => off * Real.cos (deg2rad inc)) (diffR MD) INC.tail))
  else .error (.validation "MD must be strictly increasing.")

/-- Embedding of `Survey.off2tvd`: seeds the output with `MD.copy()`, puts
`sqrt(dMD^2 - dDX^2 - dDY^2)` (no clamp — NaN when negative) in the tail
slots, and returns the cumulative sum of the whole array. -/
noncomputable def off2tvd (MD DX DY : List ℝ) : Except SurveyErr (List (Option ℝ)) :=
  if MD.Chain' (· < ·) then
    match MD with
    | [] => .ok []
    | md0 :: _ =>
      .ok (cumsumN (some md0 :: List.zipWith3
        (fun dm dx dy => nansqrt (dm ^ 2 - dx ^ 2 - dy ^ 2))
        (diffR MD) (diffR DX) (diffR DY)))
  else .error (.validation "MD must be strictly increasing.")

/-- One iteration of the minimum-curvature loop: dogleg angle with the
clipped arccos argument, ratio factor with the small-angle guard, and the
incremental (East, North, Down) displacements. -/
noncomputable def mcStep (small_angle dmd i1 a1 i2 a2 : ℝ) : ℝ × ℝ × ℝ :=
  let cos_dl := npClip (Real.cos i1 * Real.cos i2 +
    Real.sin i1 * Real.sin i2 * Real.cos (a2 - a1)) (-1) 1
  let dl := Real.arccos cos_dl
  let rf := if dl < small_angle then 1 else (2 / dl) * Real.tan (dl / 2)
  let dN := 0.5 * dmd * rf * (Real.sin i1 * Real.cos a1 + Real.sin i2 * Real.cos a2)
  let dE := 0.5 * dmd * rf * (Real.sin i1 * Real.sin a1 + Real.sin i2 * Real.sin a2)
  let dV := 0.5 * dmd * rf * (Real.cos i1 + Real.cos i2)
  (dE, dN, dV)

/-- The `for i in range(1, n)` loop of `minimum_curvature`, carrying the
previous station (md, inc, azi in radians) and the accumulated
(DX, DY, TVD); returns the arrays from station 1 on. -/
noncomputable def mcAux (sa : ℝ) : ℝ → ℝ → ℝ → ℝ → ℝ → ℝ →
    List ℝ → List ℝ → List ℝ → List ℝ × List ℝ × List ℝ
  | md1, i1, a1, x, y, v, md2 :: MDs, i2 :: INCs, a2 :: AZIs =>
    let s := mcStep sa (md2 - md1) i1 a1 i2 a2
    let rest := mcAux sa md2 i2 a2 (x + s.1) (y + s.2.1) (v + s.2.2) MDs INCs AZIs
    ((x + s.1) :: rest.1, (y + s.2.1) :: rest.2.1, (v + s.2.2) :: rest.2.2)
  | _, _, _, _, _, _, _, _, _ => ([], [], [])

/-- Embedding of `Survey.minimum_curvature`: degree inputs are converted to
radians, MD must be strictly increasing and the three arrays equal-length;
station 0 is seeded from the tie-in and the loop accumulates. -/
noncomputable def minimum_curvature (MD INC_deg AZI_deg : List ℝ)
    (xhead yhead datum small_angle : ℝ) :
    Except SurveyErr (List ℝ × List ℝ × List ℝ) :=
  if MD.Chain' (· < ·) then
    if (INC_deg.map deg2rad).length = (AZI_deg.map deg2rad).length ∧
        (AZI_deg.map deg2rad).length = MD.length then
      match MD, INC_deg.map deg2rad, AZI_deg.map deg2rad with
      | md0 :: MDs, i0 :: INCs, a0 :: AZIs =>
        let r := mcAux small_angle md0 i0 a0 xhead yhead datum MDs INCs AZIs
        .ok (xhead :: r.1, yhead :: r.2.1, datum :: r.2.2)
      | _, _, _ => .ok ([], [], [])
    else .error (.validation "MD, INC, AZI must have the same length.")
  else .error (.validation "MD must be strictly increasing.")

end Survey

namespace Survey

theorem mcStep_zero (sa dmd a1 a2 : ℝ) (hsa : 0 < sa) :
    mcStep sa dmd 0 a1 0 a2 = (0, 0, dmd) := by
  simp only [mcStep, npClip]
  rw [Real.cos_zero, Real.sin_zero]
  have hclip : min (max ((1:ℝ) * 1 + 0 * 0 * Real.cos (a2 - a1)) (-1)) 1 = 1 := by
    norm_num
  rw [hclip, Real.arccos_one, if_pos hsa]
  norm_num
  ring

theorem mcAux_zero (sa : ℝ) (hsa : 0 < sa) :
    ∀ (MDs : List ℝ) (AZIs : List ℝ) (md1 a1 x y v : ℝ),
      MDs.length = AZIs.length →
      mcAux sa md1 0 a1 x y v MDs (List.replicate MDs.length 0) AZIs =
        (List.replicate MDs.length x, List.replicate MDs.length y,
         MDs.map (fun m => v + (m - md1))) := by
  intro MDs
  induction MDs with
  | nil => intro AZIs md1 a1 x y v _; rfl
  | cons md2 MDs ih =>
    intro AZIs md1 a1 x y v hlen
    cases AZIs with
    | nil => simp at hlen
    | cons a2 AZIs =>
      rw [List.length_cons, List.replicate_succ]
      show (let s := mcStep sa (md2 - md1) 0 a1 0 a2
        let rest := mcAux sa md2 0 a2 (x + s.1) (y + s.2.1) (v + s.2.2)
          MDs (List.replicate MDs.length 0) AZIs
        ((x + s.1) :: rest.1, (y + s.2.1) :: rest.2.1, (v + s.2.2) :: rest.2.2)) = _
    
      rw [mcStep_zero sa (md2 - md1) a1 a2 hsa]
      simp only [add_zero]
      rw [ih AZIs md2 a2 x y (v + (md2 - md1)) (by simpa using hlen)]
      simp only [List.map_cons, List.replicate_succ]
      refine congrArg (fun t => (x :: List.replicate MDs.length x, t)) ?_
      refine congrArg (fun t => (y :: List.replicate MDs.length y, t)) ?_
      rw [show (fun m => (v + (md2 - md1)) + (m - md2)) = (fun m : ℝ => v + (m - md1))
        from funext fun m => by ring]

theorem getD_map_lt (f : ℝ → ℝ) (l : List ℝ) (j : ℕ) (h : j < l.length) (d d2 : ℝ) :
    (l.map f).getD j d = f (l.getD j d2) := by
  rw [List.getD_eq_getElem l d2 h, List.getD_eq_getElem (l.map f) d (by simpa using h)]
  exact List.getElem_map f

/-- C3: minimum_curvature with all inclinations zero (any equal-length
azimuths) returns DX constant at the tie-in xhead, DY constant at yhead,
and TVD starting at datum and advancing by exactly the MD increments. -/
theorem minimum_curvature_vertical (MD AZI : List ℝ) (xh yh datum sa : ℝ)
    (hmono : MD.Chain' (· < ·)) (hlen : AZI.length = MD.length) (hsa : 0 < sa) :
    ∃ TVD : List ℝ,
      minimum_curvature MD (List.replicate MD.length 0) AZI xh yh datum sa =
        .ok (List.replicate MD.length xh, List.replicate MD.length yh, TVD) ∧
      TVD.length = MD.length ∧
      (MD ≠ [] → TVD.headD 0 = datum) ∧
      (∀ i, 0 < i → i < MD.length →
        TVD.getD i 0 - TVD.getD (i - 1) 0 = MD.getD i 0 - MD.getD (i - 1) 0) := by
  unfold minimum_curvature
  rw [if_pos hmono]
  have hmap0 : (List.replicate MD.length (0:ℝ)).map deg2rad =
      List.replicate MD.length 0 := by
    rw [List.map_replicate]
    simp [deg2rad]
  rw [hmap0, if_pos ⟨by simp [hlen], by simp [hlen]⟩]
  cases MD with
  | nil =>
    have hAZI : AZI = [] := List.length_eq_zero.mp (by simpa using hlen)
    subst hAZI
    refine ⟨[], rfl, rfl, fun h => absurd rfl h, ?_⟩
    intro i h0 hn
    simp at hn
  | cons md0 MDs =>
    cases AZI with
    | nil => simp at hlen
    | cons az0 AZIs =>
      rw [List.length_cons, List.replicate_succ, List.map_cons]
      refine ⟨datum :: MDs.map (fun m => datum + (m - md0)), ?_, ?_, fun _ => rfl, ?_⟩
      · show Except.ok
          (let r := mcAux sa md0 0 (deg2rad az0) xh yh datum
            MDs (List.replicate MDs.length 0) (AZIs.map deg2rad)
           (xh :: r.1, yh :: r.2.1, datum :: r.2.2)) = _
        rw [mcAux_zero sa hsa MDs (AZIs.map deg2rad) md0 (deg2rad az0) xh yh datum
          (by simpa using hlen.symm)]
        rw [List.replicate_succ, List.replicate_succ]
      · simp
      · intro i h0 hn
        obtain ⟨j, rfl⟩ : ∃ j, i = j + 1 := ⟨i - 1, by omega⟩
        simp only [Nat.add_sub_cancel]
        rw [List.getD_cons_succ, List.getD_cons_succ]
        cases j with
        | zero =>
          have hb : 0 < MDs.length := by
            have hn2 : 0 + 1 < MDs.length + 1 := by simpa using hn
            omega
          rw [List.getD_cons_zero, List.getD_cons_zero,
            getD_map_lt _ _ _ hb 0 0]
          ring
        | succ j2 =>
          have hb2 : j2 + 1 < MDs.length := by
            have hn2 : j2 + 1 + 1 < MDs.length + 1 := by simpa using hn
            omega
          have hb1 : j2 < MDs.length := by omega
          rw [List.getD_cons_succ, List.getD_cons_succ,
            getD_map_lt _ _ _ hb2 0 0, getD_map_lt _ _ _ hb1 0 0]
          ring

end Survey

/-- Witness for C3 at the spec's end-to-end scenario: MD [0,10,20,30], all
inclinations and azimuths zero, tie-in the origin. -/
theorem minimum_curvature_vertical_witness :
    ∃ TVD : List ℝ,
      Survey.minimum_curvature [0, 10, 20, 30]
          (List.replicate (List.length ([0, 10, 20, 30] : List ℝ)) 0)
          [0, 0, 0, 0] 0 0 0 1e-8 =
        .ok (List.replicate (List.length ([0, 10, 20, 30] : List ℝ)) 0,
             List.replicate (List.length ([0, 10, 20, 30] : List ℝ)) 0, TVD) ∧
      TVD.length = List.length ([0, 10, 20, 30] : List ℝ) ∧
      (([0, 10, 20, 30] : List ℝ) ≠ [] → TVD.headD 0 = 0) ∧
      (∀ i, 0 < i → i < List.length ([0, 10, 20, 30] : List ℝ) →
        TVD.getD i 0 - TVD.getD (i - 1) 0 =
          ([0, 10, 20, 30] : List ℝ).getD i 0 - ([0, 10, 20, 30] : List ℝ).getD (i - 1) 0) :=
  Survey.minimum_curvature_vertical [0, 10, 20, 30] [0, 0, 0, 0] 0 0 0 1e-8
    (by norm_num [List.chain'_cons]) rfl (by norm_num)

/-- C2 (code bug): at MD = [100, 110] with INC = [0, 0] — a vertical well
whose first station is at measured depth 100 — inc2tvd returns [100, 10]:
the cumulative sum that overwrites the tail is seeded at zero rather than at
the copied first station, so the claimed recurrence value
TVD[0] + (MD[1]-MD[0])·cos(radians(INC[1])) = 110 is not returned (the
output TVD even decreases along a vertical well, contradicting the method's
own docstring). -/
theorem inc2tvd_seed_bug :
    Survey.inc2tvd [0, 0] [100, 110] = .ok [100, 10] ∧
    (100 : ℝ) + (110 - 100) * Real.cos (Survey.deg2rad 0) = 110 ∧
    (10 : ℝ) ≠ 110 := by
  refine ⟨?_, ?_, by norm_num⟩
  · unfold Survey.inc2tvd
    rw [if_pos (by norm_num [List.chain'_cons])]
    norm_num [Survey.diffR, Survey.cumsum, Survey.cumsumFrom, Survey.deg2rad,
      Real.cos_zero, List.zipWith]
  · norm_num [Survey.deg2rad, Real.cos_zero]

/-- C1 (code bug): off2tvd lacks the documented max(0, ·) clamp: at
MD = [0, 1], DX = [0, 2], DY = [0, 0] the segment argument 1 - 4 - 0 is
negative, so the second output is NaN (modelled `none`), not the
zero-progress value the spec requires; and at MD = [5, 6] with constant
offsets the output starts at MD[0] = 5, not the documented TVD[0] = 0. -/
theorem off2tvd_clamp_bug :
    Survey.off2tvd [0, 1] [0, 2] [0, 0] = .ok [some 0, none] ∧
    (none : Option ℝ) ≠ some 0 ∧
    Survey.off2tvd [5, 6] [5, 5] [5, 5] = .ok [some 5, some 6] ∧
    (some (5 : ℝ) : Option ℝ) ≠ some 0 := by
  refine ⟨?_, by simp, ?_, by simp⟩
  · unfold Survey.off2tvd
    rw [if_pos (by norm_num [List.chain'_cons])]
    norm_num [Survey.diffR, List.zipWith3, Survey.nansqrt, Survey.cumsumN,
      Survey.cumsumNFrom, Survey.addN]
  · unfold Survey.off2tvd
    rw [if_pos (by norm_num [List.chain'_cons])]
    norm_num [Survey.diffR, List.zipWith3, Survey.nansqrt, Survey.cumsumN,
      Survey.cumsumNFrom, Survey.addN, Real.sqrt_one]
